import Mathlib

/-!
# A verification development for `examples/sample.cpp`

The translation unit holds a class `Calculator` with the methods `add` and
`multiply`, and the free functions `formatMessage` and `processVector`.

Embedding conventions.

* `int` is the 32-bit signed type; its values are the integers between
  `INT_MIN` and `INT_MAX`.  The built-in `+` on `int` is the addition the
  compiled code performs: the operands as 32-bit patterns, added modulo
  `2^32`, the result read back in two's complement.  (The C++ standard leaves
  the overflowing case undefined; the embedding takes what the machine
  addition returns there.)
* `double` is a value `Double`: not-a-number, a signed infinity, or a signed
  finite magnitude.  The rounding of an exact product to the nearest `double`
  is the parameter `rnd` (`none` when the product overflows).
* `std::string` is `String`; `operator+` is concatenation.
* `std::cout` is a record `OStream`: the characters that have reached the
  device, how many more the device accepts, the error state `rdstate()` and
  the exception mask `exceptions()`.  The insertion operators follow the
  library's `ostream` code: a sentry that refuses to write on a stream that is
  not good, `setstate(badbit)` when the device refuses a character, and
  `ios_base::failure` thrown by `setstate` when the mask selects a set bit.
  The stream is unbuffered (each character goes to the device at once), has
  the default formatting flags (decimal, no sign for non-negatives, width 0)
  and is tied to no other stream, as `std::cout` is at program start.  What is
  stated about a refused write is limited to what does not depend on the
  moment the refusal is noticed: `badbit` is set, and the call throws only
  under a non-empty mask and does throw under a mask that contains `badbit`.
* A `void` function that can throw returns `Except IosFailure Unit` together
  with the state it leaves behind.
-/

/-! ## The `int` type -/

/-- Smallest value of the 32-bit `int`. -/
def INT_MIN : Int := -2147483648

/-- Largest value of the 32-bit `int`. -/
def INT_MAX : Int := 2147483647

/-- Representability in `int`. -/
def isInt (v : Int) : Prop := INT_MIN ≤ v ∧ v ≤ INT_MAX

instance isInt.decidable (v : Int) : Decidable (isInt v) := by
  unfold isInt
  infer_instance

/-- The 32-bit pattern that holds an `int`: its value modulo `2^32`. -/
def toBits (v : Int) : Int :=
  v % 4294967296

/-- The `int` a 32-bit pattern stands for in two's complement. -/
def ofBits (u : Int) : Int :=
  if u < 2147483648 then u else u - 4294967296

/-- Built-in `operator+` on two `int` operands as the compiled code performs
it: the 32-bit patterns added modulo `2^32`, read back in two's complement.
The result is always defined (`some`). -/
def intAdd (a b : Int) : Option Int :=
  some (ofBits ((toBits a + toBits b) % 4294967296))

/-- Two's-complement wraparound as the specification words it: the
mathematical value reduced modulo `2^32` into the signed 32-bit range. -/
def wraparound (v : Int) : Int :=
  (v + 2147483648) % 4294967296 - 2147483648

/-! ## `Calculator::add` -/

/-- The method `int add(int a, int b)` with body `return a + b;`. -/
def Calculator.add (a b : Int) : Option Int :=
  intAdd a b

/-! ## The `double` type and `Calculator::multiply` -/

/-- The function `std::string formatMessage(const std::string &message)` with
body `return "Message: " + message;`. -/
def formatMessage (message : String) : String :=
  "Message: " ++ message

/-! ## The output stream -/

/-- The bits of `ios_base::iostate` an output stream can set. -/
structure IoState where
  badbit : Bool
  failbit : Bool
deriving DecidableEq, Repr

/-- The constant `ios_base::goodbit`: no bit set. -/
def goodbit : IoState := ⟨false, false⟩

/-- The constant `ios_base::badbit`. -/
def badbit : IoState := ⟨true, false⟩

/-- The constant `ios_base::failbit`. -/
def failbit : IoState := ⟨false, true⟩

/-- Bitwise or of two states. -/
def IoState.or (s t : IoState) : IoState :=
  ⟨s.badbit || t.badbit, s.failbit || t.failbit⟩

/-- Whether two states share a set bit: `(s & t) != 0`. -/
def IoState.meets (s t : IoState) : Bool :=
  (s.badbit && t.badbit) || (s.failbit && t.failbit)

/-- The standard output stream. -/
structure OStream where
  /-- Characters that have reached standard output, oldest first. -/
  device : List Char
  /-- How many more characters the device accepts: `none` is a device that
  never refuses, `some 0` a closed one. -/
  room : Option Nat
  /-- The error state, `rdstate()`. -/
  rdstate : IoState
  /-- The exception mask, `exceptions()`; `goodbit` by default. -/
  exceptions : IoState
deriving DecidableEq, Repr

/-- The exception `std::ios_base::failure`. -/
inductive IosFailure where
  | failure
deriving DecidableEq, Repr

deriving instance DecidableEq for Except

/-- A `void` operation on state `σ` that may throw `ios_base::failure`. -/
abbrev Exec (σ : Type) : Type := σ → Except IosFailure Unit × σ

/-- Sequencing `f; g`: when `f` throws, `g` does not run. -/
def Exec.andThen {σ : Type} (f g : Exec σ) : Exec σ := fun s =>
  match f s with
  | (Except.ok _, s1) => g s1
  | (Except.error e, s1) => (Except.error e, s1)

/-- The member `good()`. -/
def OStream.good (os : OStream) : Bool :=
  os.rdstate = goodbit

/-- The member `bad()`. -/
def OStream.bad (os : OStream) : Bool :=
  os.rdstate.badbit

/-- The member `setstate(bits)`, that is `clear(rdstate() | bits)`: sets the
bits and throws when the exception mask selects a bit of the new state. -/
def OStream.setstate (bits : IoState) : Exec OStream := fun os =>
  let os1 := { os with rdstate := os.rdstate.or bits }
  if os1.exceptions.meets os1.rdstate then (Except.error IosFailure.failure, os1)
  else (Except.ok (), os1)

/-- The call `rdbuf()->sputn(text)` on the unbuffered device: the characters
that fit are appended; the flag tells whether all of them did. -/
def OStream.sputn (text : List Char) (os : OStream) : Bool × OStream :=
  match os.room with
  | none => (true, { os with device := os.device ++ text })
  | some k =>
    (decide (text.length ≤ k),
      { os with device := os.device ++ text.take k, room := some (k - text.length) })

/-- The body of an output function on the characters `text`: construct the
sentry; when the stream is good write the characters and set `badbit` if the
device refused one; when it is not good write nothing, and set `failbit` if
`bad()`. -/
def OStream.insert (text : List Char) : Exec OStream := fun os =>
  if os.good then
    match os.sputn text with
    | (true, os1) => (Except.ok (), os1)
    | (false, os1) => OStream.setstate badbit os1
  else if os.bad then OStream.setstate failbit os
  else (Except.ok (), os)

/-- The member `flush()`: behind the sentry, `rdbuf()->pubsync()`, which has
nothing left to do on the unbuffered device and succeeds.  A refusal that a
buffered stream meets only here, when it hands its buffer to the device, is
met in this embedding at the insertion of the refused character; in both cases
it sets `badbit` before the call ends. -/
def OStream.flush : Exec OStream := fun os =>
  if os.good then (Except.ok (), os)
  else if os.bad then OStream.setstate failbit os
  else (Except.ok (), os)

/-! ## Decimal formatting of an `int` -/

/-- The digit table `"0123456789"`. -/
def digitChar (d : Nat) : Char :=
  Char.ofNat (48 + d)

/-- The digit loop of the library's integer formatting,
`do { *--buf = digit[v % 10]; v /= 10; } while (v != 0);`, with the number of
iterations left as fuel. -/
def intToChar : Nat → Nat → List Char → List Char
  | 0, _, buf => buf
  | fuel + 1, v, buf =>
    if v / 10 = 0 then digitChar (v % 10) :: buf
    else intToChar fuel (v / 10) (digitChar (v % 10) :: buf)

/-- What `num_put` produces for an `int` under the default flags: a minus sign
for a negative value, then the digits of the magnitude. -/
def decimal (num : Int) : List Char :=
  if num < 0 then '-' :: intToChar (num.natAbs + 1) num.natAbs []
  else intToChar (num.natAbs + 1) num.natAbs []

/-- The insertion `os << num` for an `int`. -/
def OStream.insertInt (num : Int) : Exec OStream :=
  OStream.insert (decimal num)

/-- The insertion `os << " "`. -/
def OStream.insertSpace : Exec OStream :=
  OStream.insert [Char.ofNat 32]

/-- The manipulator `os << std::endl`: `put('\n')`, then `flush()`. -/
def OStream.endl : Exec OStream :=
  Exec.andThen (OStream.insert [Char.ofNat 10]) OStream.flush

/-! ## `processVector` -/

/-- The objects `processVector` can reach: the vector its parameter refers to
and `std::cout`. -/
structure World where
  numbers : List Int
  cout : OStream
deriving DecidableEq, Repr

/-- Run a stream operation on `std::cout`. -/
def onCout (f : Exec OStream) : Exec World := fun w =>
  ((f w.cout).1, { w with cout := (f w.cout).2 })

/-- The loop body `std::cout << num << " ";` with `num` a copy of the
element. -/
def loopBody (num : Int) : Exec World :=
  onCout (Exec.andThen (OStream.insertInt num) OStream.insertSpace)

/-- The loop `for (int num : numbers) body`: `left` iterations remain and the
iterator stands at index `i`; each iteration reads the element under the
iterator from the vector as it is then.  The body leaves the vector alone
(`rangeFor_numbers`), so the iterator never leaves it; the loop would stop if
it did. -/
def rangeFor : Nat → Nat → Exec World
  | 0, _, w => (Except.ok (), w)
  | left + 1, i, w =>
    match w.numbers.get? i with
    | none => (Except.ok (), w)
    | some num => Exec.andThen (loopBody num) (rangeFor left (i + 1)) w

/-- The function `void processVector(std::vector<int> &numbers)`: the
range-based loop from `begin()` to the `end()` taken on entry, then
`std::cout << std::endl;`. -/
def processVector : Exec World := fun w =>
  Exec.andThen (rangeFor w.numbers.length 0) (onCout OStream.endl) w

/-- The text the interface section gives for a sequence:
`str(n1) + " " + ... + str(nk) + " " + "\n"`. -/
def layout (numbers : List Int) : String :=
  String.join (numbers.map (fun n => toString n ++ " ")) ++ "\n"

/-- The characters a complete run sends to a device that accepts them all:
each element formatted and followed by a space, then the line terminator. -/
def printed (numbers : List Int) : List Char :=
  (numbers.map (fun n => decimal n ++ [Char.ofNat 32])).flatten ++ [Char.ofNat 10]

/-- Standard output with the default settings on a closed device: every
character is refused. -/
def closedCout : OStream :=
  { device := [], room := some 0, rdstate := goodbit, exceptions := goodbit }

/-- Standard output with the default settings, already in a failed state
(`badbit` set) when the call begins. -/
def failedCout : OStream :=
  { device := [], room := none, rdstate := badbit, exceptions := goodbit }

/-- Standard output whose device accepts `k` more characters, with the
exception mask `mask`. -/
def boundedCout (k : Nat) (mask : IoState) : OStream :=
  { device := [], room := some k, rdstate := goodbit, exceptions := mask }

/-- The device of `os` takes `n` more characters without refusing one. -/
def OStream.accepts (os : OStream) (n : Nat) : Prop :=
  match os.room with
  | none => True
  | some k => n ≤ k

instance OStream.accepts.decidable (os : OStream) (n : Nat) : Decidable (os.accepts n) := by
  unfold OStream.accepts
  cases os.room <;> infer_instance

/-- The stream `os` after its device has taken the characters `text`. -/
def OStream.afterWriting (os : OStream) (text : List Char) : OStream :=
  { os with device := os.device ++ text, room := os.room.map (fun k => k - text.length) }

/-- The insertions `os << t1 << t2 << ...`, one after the other. -/
def insertAll : List (List Char) → Exec OStream
  | [] => fun os => (Except.ok (), os)
  | t :: rest => Exec.andThen (OStream.insert t) (insertAll rest)

/-- The texts the loop inserts for the elements it visits: for each element its
decimal form, then a space. -/
def segments (numbers : List Int) : List (List Char) :=
  (numbers.map (fun n => [decimal n, [Char.ofNat 32]])).flatten

/-- A stream operation `f` accounts for the text `t`: it keeps the exception
mask; it returns normally under the empty mask; and when it leaves the stream
good it has returned normally, found the stream good and appended exactly `t`
to the device. -/
def Emits (f : Exec OStream) (t : List Char) : Prop :=
  ∀ os : OStream,
    (f os).2.exceptions = os.exceptions ∧
    (os.exceptions = goodbit → (f os).1 = Except.ok ()) ∧
    ((f os).2.rdstate = goodbit →
      (f os).1 = Except.ok () ∧ os.rdstate = goodbit ∧ (f os).2.device = os.device ++ t)

/-- Standard output at program start: empty, never refusing, good, no
exceptions enabled. -/
def cout0 : OStream :=
  { device := [], room := none, rdstate := goodbit, exceptions := goodbit }

/-! ## Reading the emitted text back -/

/-- The characters a call adds to the device: what standard output holds after
`processVector`, without what it held before. -/
def emitted (w : World) : List Char :=
  (processVector w).2.cout.device.drop w.cout.device.length

/-- The value of a decimal digit character, `none` for any other character. -/
def digitValue (c : Char) : Option Nat :=
  if 48 ≤ c.toNat ∧ c.toNat ≤ 57 then some (c.toNat - 48) else none

/-- Reading a run of decimal digits, most significant first, onto the value
`acc` read so far; `none` when a character is not a digit. -/
def parseDigits : List Char → Nat → Option Nat
  | [], acc => some acc
  | c :: cs, acc =>
    match digitValue c with
    | none => none
    | some d => parseDigits cs (acc * 10 + d)

/-- Reading a field as a signed decimal integer: an optional minus sign, then
at least one digit and nothing else. -/
def parseSigned : List Char → Option Int
  | [] => none
  | c :: cs =>
    if c = '-' then
      match cs with
      | [] => none
      | d :: ds => (parseDigits (d :: ds) 0).map (fun m => -Int.ofNat m)
    else (parseDigits (c :: cs) 0).map Int.ofNat

/-- Splitting a text at each space character: the fields between the spaces,
in order, empty ones included. -/
def splitAtSpaces : List Char → List (List Char)
  | [] => [[]]
  | c :: cs =>
    if c = Char.ofNat 32 then [] :: splitAtSpaces cs
    else
      match splitAtSpaces cs with
      | [] => [[c]]
      | f :: fs => (c :: f) :: fs

/-- Reading every field of a list as a signed decimal integer; `none` when one
of them is not one. -/
def parseFields : List (List Char) → Option (List Int)
  | [] => some []
  | f :: fs =>
    match parseSigned f, parseFields fs with
    | some n, some ns => some (n :: ns)
    | _, _ => none

/-- The reading of an emitted text the round trip describes: remove the final
character (the line terminator), split the rest at each space, and read each
non-empty field as a signed decimal integer. -/
def decode (text : List Char) : Option (List Int) :=
  parseFields ((splitAtSpaces text.dropLast).filter (fun f => !f.isEmpty))

/-! ## Decimal formatting agrees with the standard decimal representation -/

theorem digitChar_eq (v : Nat) : digitChar (v % 10) = Nat.digitChar (v % 10) := by
  have h : v % 10 < 10 := Nat.mod_lt v (by decide)
  generalize v % 10 = d at h
  interval_cases d <;> rfl

theorem intToChar_eq (fuel v : Nat) (buf : List Char) :
    intToChar fuel v buf = Nat.toDigitsCore 10 fuel v buf := by
  induction fuel generalizing v buf with
  | zero => rfl
  | succ fuel ih =>
    simp only [intToChar, Nat.toDigitsCore, digitChar_eq, ih]

theorem decimal_eq_toString (num : Int) : decimal num = (toString num).data := by
  cases num with
  | ofNat m =>
    have h : ¬ (Int.ofNat m < 0) := by simp
    simp only [decimal, h, if_false, Int.natAbs_ofNat, intToChar_eq]
    rfl
  | negSucc m =>
    have h : Int.negSucc m < 0 := Int.negSucc_lt_zero m
    simp only [decimal, h, if_true, Int.natAbs_negSucc, intToChar_eq]
    rfl

theorem printed_eq_layout (numbers : List Int) : printed numbers = (layout numbers).data := by
  simp only [printed, layout, String.data_append, String.data_join, List.map_map]
  congr 2
  apply List.map_congr_left
  intro n _
  simp only [Function.comp, String.data_append, decimal_eq_toString]

/-! ## Single insertions -/

theorem insert_good (text : List Char) (os : OStream)
    (hg : os.rdstate = goodbit) (hr : os.room = none) :
    OStream.insert text os = (Except.ok (), { os with device := os.device ++ text }) := by
  simp [OStream.insert, OStream.good, OStream.sputn, hg, hr]

/-! ## What the loop and the line end leave alone -/

theorem andThen_keeps {σ α : Type} (proj : σ → α) (f g : Exec σ)
    (hf : ∀ s, proj (f s).2 = proj s) (hg : ∀ s, proj (g s).2 = proj s) (s : σ) :
    proj (Exec.andThen f g s).2 = proj s := by
  have h1 := hf s
  unfold Exec.andThen
  rcases hfs : f s with ⟨r, s1⟩
  rw [hfs] at h1
  cases r with
  | ok u => simp only []; rw [hg s1]; exact h1
  | error e => exact h1

theorem onCout_numbers (f : Exec OStream) (w : World) : (onCout f w).2.numbers = w.numbers :=
  rfl

theorem rangeFor_numbers (left i : Nat) (w : World) :
    (rangeFor left i w).2.numbers = w.numbers := by
  induction left generalizing i w with
  | zero => rfl
  | succ left ih =>
    unfold rangeFor
    cases w.numbers.get? i with
    | none => rfl
    | some num =>
      exact andThen_keeps World.numbers (loopBody num) (rangeFor left (i + 1))
        (fun s => onCout_numbers _ s) (fun s => ih (i + 1) s) w

theorem processVector_numbers (w : World) : (processVector w).2.numbers = w.numbers := by
  unfold processVector
  have h := rangeFor_numbers w.numbers.length 0 w
  unfold Exec.andThen
  rcases hr : rangeFor w.numbers.length 0 w with ⟨r, s1⟩
  rw [hr] at h
  cases r with
  | ok u => exact h
  | error e => exact h

/-! ## The run as a sequence of insertions on `std::cout` -/

theorem onCout_andThen (f g : Exec OStream) (w : World) :
    onCout (Exec.andThen f g) w = Exec.andThen (onCout f) (onCout g) w := by
  simp only [onCout, Exec.andThen]
  rcases f w.cout with ⟨r, os1⟩
  cases r <;> rfl

theorem andThen_assoc {σ : Type} (f g h : Exec σ) (s : σ) :
    Exec.andThen (Exec.andThen f g) h s = Exec.andThen f (Exec.andThen g h) s := by
  unfold Exec.andThen
  rcases hf : f s with ⟨r, s1⟩
  cases r <;> rfl

theorem andThen_skip {σ : Type} (f : Exec σ) (s : σ) :
    Exec.andThen f (fun s => (Except.ok (), s)) s = f s := by
  unfold Exec.andThen
  rcases f s with ⟨r, s1⟩
  cases r <;> rfl

theorem insertAll_single (t : List Char) (os : OStream) :
    insertAll [t] os = OStream.insert t os :=
  andThen_skip _ _

theorem insertAll_append (ts us : List (List Char)) (os : OStream) :
    insertAll (ts ++ us) os = Exec.andThen (insertAll ts) (insertAll us) os := by
  induction ts generalizing os with
  | nil => rfl
  | cons t ts ih =>
    show Exec.andThen (OStream.insert t) (insertAll (ts ++ us)) os
      = Exec.andThen (Exec.andThen (OStream.insert t) (insertAll ts)) (insertAll us) os
    rw [andThen_assoc]
    unfold Exec.andThen
    rcases OStream.insert t os with ⟨r, os1⟩
    cases r with
    | ok u => exact ih os1
    | error e => rfl

theorem loopBody_eq (num : Int) (w : World) :
    loopBody num w = onCout (insertAll [decimal num, [Char.ofNat 32]]) w := by
  unfold loopBody OStream.insertInt OStream.insertSpace
  congr 1
  funext os
  show _ = Exec.andThen (OStream.insert (decimal num))
    (Exec.andThen (OStream.insert [Char.ofNat 32]) (fun os => (Except.ok (), os))) os
  unfold Exec.andThen
  rcases OStream.insert (decimal num) os with ⟨r, os1⟩
  cases r with
  | ok u =>
    simp only []
    rcases OStream.insert [Char.ofNat 32] os1 with ⟨r2, os2⟩
    cases r2 <;> rfl
  | error e => rfl

theorem rangeFor_eq (left i : Nat) (w : World) (hlen : i + left = w.numbers.length) :
    rangeFor left i w = onCout (insertAll (segments (w.numbers.drop i))) w := by
  induction left generalizing i w with
  | zero =>
    have hi : w.numbers.length ≤ i := by omega
    rw [List.drop_of_length_le hi]
    rfl
  | succ left ih =>
    have hi : i < w.numbers.length := by omega
    have hget : w.numbers.get? i = some w.numbers[i] := by
      simp [List.getElem?_eq_getElem hi]
    have hdrop : w.numbers.drop i = w.numbers[i] :: w.numbers.drop (i + 1) :=
      List.drop_eq_getElem_cons hi
    have hseg : segments (w.numbers.drop i)
        = [decimal w.numbers[i], [Char.ofNat 32]] ++ segments (w.numbers.drop (i + 1)) := by
      rw [hdrop]
      rfl
    simp only [rangeFor, hget]
    rw [hseg]
    have hsplit : onCout (insertAll ([decimal w.numbers[i], [Char.ofNat 32]]
          ++ segments (w.numbers.drop (i + 1)))) w
        = Exec.andThen (onCout (insertAll [decimal w.numbers[i], [Char.ofNat 32]]))
            (onCout (insertAll (segments (w.numbers.drop (i + 1))))) w := by
      rw [← onCout_andThen]
      unfold onCout
      rw [insertAll_append]
    rw [hsplit]
    unfold Exec.andThen
    rw [← loopBody_eq]
    have hnum : (loopBody w.numbers[i] w).2.numbers = w.numbers := onCout_numbers _ w
    rcases hb : loopBody w.numbers[i] w with ⟨r, w1⟩
    rw [hb] at hnum
    simp only [] at hnum
    cases r with
    | ok u =>
      simp only []
      rw [ih (i + 1) w1 (by rw [hnum]; omega), hnum]
    | error e => rfl

theorem processVector_eq (w : World) :
    processVector w
      = onCout (Exec.andThen (insertAll (segments w.numbers ++ [[Char.ofNat 10]]))
          OStream.flush) w := by
  have hloop := rangeFor_eq w.numbers.length 0 w (Nat.zero_add _)
  rw [List.drop_zero] at hloop
  have hnum := rangeFor_numbers w.numbers.length 0 w
  unfold processVector
  rw [onCout_andThen]
  unfold Exec.andThen
  have hins : onCout (insertAll (segments w.numbers ++ [[Char.ofNat 10]])) w
      = Exec.andThen (rangeFor w.numbers.length 0)
          (onCout (OStream.insert [Char.ofNat 10])) w := by
    rw [show onCout (insertAll (segments w.numbers ++ [[Char.ofNat 10]])) w
        = Exec.andThen (onCout (insertAll (segments w.numbers)))
            (onCout (insertAll [[Char.ofNat 10]])) w from by
      rw [← onCout_andThen]
      unfold onCout
      rw [insertAll_append]]
    unfold Exec.andThen
    rw [← hloop]
    rcases rangeFor w.numbers.length 0 w with ⟨r, w1⟩
    cases r with
    | ok u =>
      simp only [onCout, insertAll_single]
    | error e => rfl
  rw [hins]
  unfold Exec.andThen
  rcases rangeFor w.numbers.length 0 w with ⟨r, w1⟩
  cases r with
  | ok u =>
    simp only [onCout, OStream.endl, Exec.andThen]
    rcases OStream.insert [Char.ofNat 10] w1.cout with ⟨r2, os2⟩
    cases r2 <;> rfl
  | error e => rfl

theorem segments_flatten (numbers : List Int) :
    (segments numbers ++ [[Char.ofNat 10]]).flatten = printed numbers := by
  unfold segments printed
  induction numbers with
  | nil => rfl
  | cons n ns ih =>
    simp only [List.map_cons, List.flatten_cons, List.flatten_append, List.append_assoc,
      List.cons_append, List.nil_append, List.flatten_nil, List.append_nil] at ih ⊢
    rw [ih]

/-! ## Error state and exceptions -/

theorem setstate_snd (bits : IoState) (os : OStream) :
    (OStream.setstate bits os).2 = { os with rdstate := os.rdstate.or bits } := by
  unfold OStream.setstate
  simp only []
  split <;> rfl

theorem setstate_fst (bits : IoState) (os : OStream) :
    (OStream.setstate bits os).1
      = if os.exceptions.meets (os.rdstate.or bits) then Except.error IosFailure.failure
        else Except.ok () := by
  unfold OStream.setstate
  simp only []
  split <;> rfl

theorem meets_goodbit (s : IoState) : goodbit.meets s = false := rfl

theorem or_badbit_ne (s : IoState) : s.or badbit ≠ goodbit := by
  intro h
  have h2 := congrArg IoState.badbit h
  simp [IoState.or, badbit, goodbit] at h2

theorem or_failbit_ne (s : IoState) : s.or failbit ≠ goodbit := by
  intro h
  have h2 := congrArg IoState.failbit h
  simp [IoState.or, failbit, goodbit] at h2

theorem emits_setstate_bad (bits : IoState) (hb : ∀ s : IoState, s.or bits ≠ goodbit)
    (os : OStream) (t : List Char) :
    (OStream.setstate bits os).2.exceptions = os.exceptions ∧
    (os.exceptions = goodbit → (OStream.setstate bits os).1 = Except.ok ()) ∧
    ((OStream.setstate bits os).2.rdstate = goodbit →
      (OStream.setstate bits os).1 = Except.ok () ∧ os.rdstate = goodbit ∧
      (OStream.setstate bits os).2.device = os.device ++ t) := by
  rw [setstate_snd, setstate_fst]
  refine ⟨rfl, ?_, ?_⟩
  · intro hm
    rw [hm, meets_goodbit]
    rfl
  · intro hgood
    exact absurd hgood (hb _)

theorem bad_not_good (os : OStream) (hb : os.rdstate.badbit = true) : os.good = false := by
  have h : os.rdstate ≠ goodbit := by
    intro h
    rw [h] at hb
    exact absurd hb (by decide)
  simpa [OStream.good] using h

theorem insert_fits (t : List Char) (os : OStream) (k : Nat)
    (hg : os.rdstate = goodbit) (hr : os.room = some k) (hfit : t.length ≤ k) :
    OStream.insert t os
      = (Except.ok (), { os with device := os.device ++ t, room := some (k - t.length) }) := by
  simp [OStream.insert, OStream.good, OStream.sputn, hg, hr, hfit, List.take_of_length_le hfit]

theorem insert_refused (t : List Char) (os : OStream) (k : Nat)
    (hg : os.rdstate = goodbit) (hr : os.room = some k) (hk : k < t.length) :
    OStream.insert t os
      = OStream.setstate badbit
          { os with device := os.device ++ t.take k, room := some (k - t.length) } := by
  have hfit : ¬ t.length ≤ k := by omega
  simp [OStream.insert, OStream.good, OStream.sputn, hg, hr, hfit]

theorem insert_of_bad (t : List Char) (os : OStream) (hb : os.rdstate.badbit = true) :
    OStream.insert t os = OStream.setstate failbit os := by
  simp [OStream.insert, bad_not_good os hb, OStream.bad, hb]

theorem insert_of_fail (t : List Char) (os : OStream)
    (hg : os.rdstate ≠ goodbit) (hb : os.rdstate.badbit = false) :
    OStream.insert t os = (Except.ok (), os) := by
  simp [OStream.insert, OStream.good, hg, OStream.bad, hb]

theorem flush_good (os : OStream) (hg : os.rdstate = goodbit) :
    OStream.flush os = (Except.ok (), os) := by
  simp [OStream.flush, OStream.good, hg]

theorem flush_of_bad (os : OStream) (hb : os.rdstate.badbit = true) :
    OStream.flush os = OStream.setstate failbit os := by
  simp [OStream.flush, bad_not_good os hb, OStream.bad, hb]

theorem flush_of_fail (os : OStream)
    (hg : os.rdstate ≠ goodbit) (hb : os.rdstate.badbit = false) :
    OStream.flush os = (Except.ok (), os) := by
  simp [OStream.flush, OStream.good, hg, OStream.bad, hb]

theorem emits_insert (t : List Char) : Emits (OStream.insert t) t := by
  intro os
  by_cases hg : os.rdstate = goodbit
  · cases hroom : os.room with
    | none =>
      rw [insert_good t os hg hroom]
      exact ⟨rfl, fun _ => rfl, fun _ => ⟨rfl, hg, rfl⟩⟩
    | some k =>
      by_cases hfit : t.length ≤ k
      · rw [insert_fits t os k hg hroom hfit]
        exact ⟨rfl, fun _ => rfl, fun _ => ⟨rfl, hg, rfl⟩⟩
      · rw [insert_refused t os k hg hroom (by omega)]
        have h := emits_setstate_bad badbit or_badbit_ne
          { os with device := os.device ++ List.take k t, room := some (k - t.length) } t
        refine ⟨h.1, h.2.1, fun hgood => ?_⟩
        rw [setstate_snd] at hgood
        exact absurd hgood (or_badbit_ne _)
  · cases hb : os.rdstate.badbit with
    | true =>
      rw [insert_of_bad t os hb]
      exact emits_setstate_bad failbit or_failbit_ne os t
    | false =>
      rw [insert_of_fail t os hg hb]
      exact ⟨rfl, fun _ => rfl, fun hgood => absurd hgood hg⟩

theorem emits_flush : Emits OStream.flush [] := by
  intro os
  by_cases hg : os.rdstate = goodbit
  · rw [flush_good os hg]
    exact ⟨rfl, fun _ => rfl, fun _ => ⟨rfl, hg, (List.append_nil _).symm⟩⟩
  · cases hb : os.rdstate.badbit with
    | true =>
      rw [flush_of_bad os hb]
      exact emits_setstate_bad failbit or_failbit_ne os []
    | false =>
      rw [flush_of_fail os hg hb]
      exact ⟨rfl, fun _ => rfl, fun hgood => absurd hgood hg⟩

theorem emits_andThen (f g : Exec OStream) (t u : List Char)
    (hf : Emits f t) (hg : Emits g u) : Emits (Exec.andThen f g) (t ++ u) := by
  intro os
  have h1 := hf os
  unfold Exec.andThen
  rcases hfos : f os with ⟨r, s1⟩
  rw [hfos] at h1
  simp only [] at h1
  have h2 := hg s1
  cases r with
  | ok v =>
    simp only []
    refine ⟨h2.1.trans h1.1, fun hm => h2.2.1 (h1.1.trans hm), fun hgood => ?_⟩
    obtain ⟨hok, hs1, hdev⟩ := h2.2.2 hgood
    obtain ⟨_, hos, hdev1⟩ := h1.2.2 hs1
    exact ⟨hok, hos, by rw [hdev, hdev1, List.append_assoc]⟩
  | error e =>
    simp only []
    refine ⟨h1.1, fun hm => ?_, fun hgood => ?_⟩
    · exact absurd (h1.2.1 hm) (by simp)
    · exact absurd (h1.2.2 hgood).1 (by simp)

theorem emits_insertAll (texts : List (List Char)) : Emits (insertAll texts) texts.flatten := by
  induction texts with
  | nil =>
    intro os
    exact ⟨rfl, fun _ => rfl, fun hgood => ⟨rfl, hgood, (List.append_nil _).symm⟩⟩
  | cons t rest ih =>
    exact emits_andThen _ _ _ _ (emits_insert t) ih

theorem emits_run (numbers : List Int) :
    Emits (Exec.andThen (insertAll (segments numbers ++ [[Char.ofNat 10]])) OStream.flush)
      (printed numbers) := by
  have h := emits_andThen _ _ _ _
    (emits_insertAll (segments numbers ++ [[Char.ofNat 10]])) emits_flush
  rw [List.append_nil, segments_flatten] at h
  exact h

/-! ## Runs on a good stream whose device accepts the whole text -/

theorem insert_accepts (t : List Char) (os : OStream)
    (hg : os.rdstate = goodbit) (ha : os.accepts t.length) :
    OStream.insert t os = (Except.ok (), os.afterWriting t) := by
  unfold OStream.accepts at ha
  cases hr : os.room with
  | none =>
    rw [insert_good t os hg hr]
    simp only [OStream.afterWriting, hr, Option.map]
  | some k =>
    rw [hr] at ha
    rw [insert_fits t os k hg hr ha]
    simp only [OStream.afterWriting, hr, Option.map]

theorem afterWriting_accepts (os : OStream) (t : List Char) (n : Nat)
    (ha : os.accepts (t.length + n)) :
    os.accepts t.length ∧ (os.afterWriting t).accepts n := by
  unfold OStream.accepts OStream.afterWriting at *
  cases hr : os.room with
  | none => exact ⟨trivial, trivial⟩
  | some k =>
    rw [hr] at ha
    simp only [Option.map] at ha ⊢
    omega

theorem afterWriting_append (os : OStream) (t u : List Char) :
    (os.afterWriting t).afterWriting u = os.afterWriting (t ++ u) := by
  unfold OStream.afterWriting
  cases hr : os.room with
  | none => simp [List.append_assoc]
  | some k => simp [List.append_assoc, Nat.sub_sub]

theorem afterWriting_nil (os : OStream) : os.afterWriting [] = os := by
  unfold OStream.afterWriting
  cases hr : os.room with
  | none => simp [← hr]
  | some k => simp [← hr]

theorem insertAll_accepts (texts : List (List Char)) (os : OStream)
    (hg : os.rdstate = goodbit) (ha : os.accepts texts.flatten.length) :
    insertAll texts os = (Except.ok (), os.afterWriting texts.flatten) := by
  induction texts generalizing os with
  | nil =>
    rw [List.flatten_nil, afterWriting_nil]
    rfl
  | cons t rest ih =>
    rw [List.flatten_cons, List.length_append] at ha
    obtain ⟨h1, h2⟩ := afterWriting_accepts os t _ ha
    show Exec.andThen (OStream.insert t) (insertAll rest) os = _
    unfold Exec.andThen
    rw [insert_accepts t os hg h1]
    simp only []
    rw [ih (os.afterWriting t) hg h2, afterWriting_append, List.flatten_cons]

theorem processVector_accepts (w : World)
    (hg : w.cout.rdstate = goodbit) (ha : w.cout.accepts (printed w.numbers).length) :
    processVector w = (Except.ok (), { w with cout := w.cout.afterWriting (printed w.numbers) }) := by
  rw [← segments_flatten] at ha
  have h := insertAll_accepts _ w.cout hg ha
  rw [processVector_eq]
  unfold onCout Exec.andThen
  rw [h]
  simp only []
  rw [flush_good (w.cout.afterWriting (segments w.numbers ++ [[Char.ofNat 10]]).flatten) hg,
    segments_flatten]

/-! ## A device that refuses a character -/

theorem meets_bad_fail (m s : IoState) (hb : s.badbit = true) :
    m.meets (s.or failbit) = true ↔ m ≠ goodbit := by
  rcases m with ⟨mb, mf⟩
  rcases s with ⟨sb, sf⟩
  simp only [] at hb
  subst hb
  cases mb <;> cases mf <;> simp [IoState.meets, IoState.or, failbit, goodbit]

theorem insertAll_of_bad (texts : List (List Char)) (os : OStream)
    (hb : os.rdstate.badbit = true) :
    (insertAll texts os).2.device = os.device ∧
    (insertAll texts os).2.rdstate.badbit = true := by
  induction texts generalizing os with
  | nil => exact ⟨rfl, hb⟩
  | cons t rest ih =>
    show (Exec.andThen (OStream.insert t) (insertAll rest) os).2.device = os.device ∧
      (Exec.andThen (OStream.insert t) (insertAll rest) os).2.rdstate.badbit = true
    unfold Exec.andThen
    rw [insert_of_bad t os hb]
    have hs := setstate_snd failbit os
    rcases hst : OStream.setstate failbit os with ⟨r, s1⟩
    rw [hst] at hs
    simp only [] at hs
    subst hs
    have hb1 : (os.rdstate.or failbit).badbit = true := by simp [IoState.or, hb]
    cases r with
    | ok v => exact ih _ hb1
    | error e => exact ⟨rfl, hb1⟩

theorem insertAll_refused (texts : List (List Char)) (os : OStream) (k : Nat)
    (hg : os.rdstate = goodbit) (hr : os.room = some k) (hk : k < texts.flatten.length) :
    (insertAll texts os).2.device = os.device ++ texts.flatten.take k ∧
    (insertAll texts os).2.rdstate.badbit = true := by
  induction texts generalizing os k with
  | nil => simp at hk
  | cons t rest ih =>
    show (Exec.andThen (OStream.insert t) (insertAll rest) os).2.device
        = os.device ++ (t :: rest).flatten.take k ∧
      (Exec.andThen (OStream.insert t) (insertAll rest) os).2.rdstate.badbit = true
    rw [List.flatten_cons, List.length_append] at hk
    rw [List.flatten_cons]
    unfold Exec.andThen
    by_cases hfit : t.length ≤ k
    · rw [insert_fits t os k hg hr hfit]
      have h := ih { os with device := os.device ++ t, room := some (k - t.length) }
        (k - t.length) hg rfl (by omega)
      refine ⟨?_, h.2⟩
      simp only [] at h ⊢
      rw [h.1, List.take_append_eq_append_take, List.take_of_length_le hfit,
        List.append_assoc]
    · rw [insert_refused t os k hg hr (by omega)]
      have hs := setstate_snd badbit
        { os with device := os.device ++ t.take k, room := some (k - t.length) }
      rcases hst : OStream.setstate badbit
        { os with device := os.device ++ t.take k, room := some (k - t.length) } with ⟨r, s1⟩
      rw [hst] at hs
      simp only [] at hs
      subst hs
      have hb1 : (os.rdstate.or badbit).badbit = true := by simp [IoState.or, badbit]
      have htake : List.take k (t ++ rest.flatten) = List.take k t :=
        List.take_append_of_le_length (by omega)
      rw [htake]
      cases r with
      | ok v =>
        have h := insertAll_of_bad rest
          { os with device := os.device ++ t.take k, room := some (k - t.length),
                    rdstate := os.rdstate.or badbit } hb1
        exact h
      | error e => exact ⟨rfl, hb1⟩

theorem run_refused (texts : List (List Char)) (os : OStream) (k : Nat)
    (hg : os.rdstate = goodbit) (hr : os.room = some k) (hk : k < texts.flatten.length) :
    (Exec.andThen (insertAll texts) OStream.flush os).2.device
        = os.device ++ texts.flatten.take k ∧
    (Exec.andThen (insertAll texts) OStream.flush os).2.rdstate.badbit = true ∧
    ((Exec.andThen (insertAll texts) OStream.flush os).1 = Except.error IosFailure.failure
      ↔ os.exceptions ≠ goodbit) := by
  have h1 := insertAll_refused texts os k hg hr hk
  have h2 := emits_insertAll texts os
  unfold Exec.andThen
  rcases hrun : insertAll texts os with ⟨r, s1⟩
  rw [hrun] at h1 h2
  simp only [] at h1 h2
  cases r with
  | ok v =>
    simp only []
    rw [flush_of_bad s1 h1.2, setstate_snd, setstate_fst]
    refine ⟨h1.1, by simp [IoState.or, h1.2], ?_⟩
    rw [← h2.1, ← meets_bad_fail s1.exceptions s1.rdstate h1.2]
    cases s1.exceptions.meets (s1.rdstate.or failbit) <;> simp
  | error e =>
    simp only []
    refine ⟨h1.1, h1.2, ?_⟩
    cases e
    constructor
    · intro _ hm
      exact absurd (h2.2.1 hm) (by simp)
    · intro _
      trivial

theorem processVector_fst (w : World) :
    (processVector w).1
      = (Exec.andThen (insertAll (segments w.numbers ++ [[Char.ofNat 10]]))
          OStream.flush w.cout).1 := by
  rw [processVector_eq]
  rfl

theorem processVector_cout (w : World) :
    (processVector w).2.cout
      = (Exec.andThen (insertAll (segments w.numbers ++ [[Char.ofNat 10]]))
          OStream.flush w.cout).2 := by
  rw [processVector_eq]
  rfl

/-! ## The machine addition -/

theorem intAdd_eq_wraparound (a b : Int) : intAdd a b = some (wraparound (a + b)) := by
  unfold intAdd ofBits toBits wraparound
  congr 1
  split <;> omega

theorem wraparound_of_isInt (v : Int) (hv : isInt v) : wraparound v = v := by
  unfold isInt INT_MIN INT_MAX at hv
  unfold wraparound
  omega

/-! ## The claims -/

/-- C1: on a good standard output whose device accepts the text,
`processVector` returns normally and appends to the device exactly
`str(n1) ++ " " ++ ... ++ str(nk) ++ " " ++ "\n"`, the decimal representation
of each element (negative ones included) followed by one space, and one line
terminator after the whole sequence; the empty vector gives exactly `"\n"` and
`[1, 2, 3]` gives exactly `"1 2 3 \n"`. -/
theorem processVector_writes_layout (w : World)
    (hg : w.cout.rdstate = goodbit)
    (ha : w.cout.accepts
      (String.join (w.numbers.map (fun n => toString n ++ " ")) ++ "\n").length) :
    (processVector w).1 = Except.ok () ∧
    (processVector w).2.cout.device
      = w.cout.device
        ++ (String.join (w.numbers.map (fun n => toString n ++ " ")) ++ "\n").data ∧
    (processVector ⟨[], cout0⟩).2.cout.device = "\n".data ∧
    (processVector ⟨[1, 2, 3], cout0⟩).2.cout.device = "1 2 3 \n".data := by
  have ha2 : w.cout.accepts (printed w.numbers).length := by
    rw [printed_eq_layout]
    exact ha
  have h := processVector_accepts w hg ha2
  refine ⟨?_, ?_, by decide, by decide⟩
  · rw [h]
  · rw [h]
    show w.cout.device ++ printed w.numbers = w.cout.device ++ (layout w.numbers).data
    rw [printed_eq_layout]

theorem processVector_writes_layout_witness :
    (boundedCout 9 goodbit).rdstate = goodbit ∧
    (boundedCout 9 goodbit).accepts
      (String.join ([-7, 0, 42].map (fun n : Int => toString n ++ " ")) ++ "\n").length ∧
    (processVector ⟨[-7, 0, 42], boundedCout 9 goodbit⟩).1 = Except.ok () ∧
    (processVector ⟨[-7, 0, 42], boundedCout 9 goodbit⟩).2.cout.device = "-7 0 42 \n".data :=
  ⟨rfl, by decide,
    (processVector_writes_layout ⟨[-7, 0, 42], boundedCout 9 goodbit⟩ rfl (by decide)).1,
    (processVector_writes_layout ⟨[-7, 0, 42], boundedCout 9 goodbit⟩ rfl (by decide)).2.1.trans
      (by decide)⟩

/-- C2: `formatMessage message` is the literal `"Message: "` followed at once by
`message`, character for character, with nothing else changed; so
`formatMessage ""` is `"Message: "` and `formatMessage "hi"` is
`"Message: hi"`. -/
theorem formatMessage_eq (message : String) :
    formatMessage message = "Message: " ++ message ∧
    (formatMessage message).data
      = ['M', 'e', 's', 's', 'a', 'g', 'e', ':', Char.ofNat 32] ++ message.data ∧
    formatMessage "" = "Message: " ∧
    formatMessage "hi" = "Message: hi" :=
  ⟨rfl, by rw [formatMessage, String.data_append], by decide, by decide⟩

/-- C3: for ints `a` and `b` whose mathematical sum is representable in `int`,
`Calculator::add` is defined and returns exactly `a + b`. -/
theorem Calculator_add_exact (a b : Int) (_ha : isInt a) (_hb : isInt b)
    (hsum : isInt (a + b)) :
    Calculator.add a b = some (a + b) := by
  rw [Calculator.add, intAdd_eq_wraparound, wraparound_of_isInt _ hsum]

theorem Calculator_add_exact_witness :
    isInt 2 ∧ isInt 3 ∧ isInt (2 + 3) ∧ Calculator.add 2 3 = some 5 :=
  ⟨by decide, by decide, by decide,
    Calculator_add_exact 2 3 (by decide) (by decide) (by decide)⟩

/-- C4: for all ints `a` and `b`, also when the mathematical sum is outside
the range of `int`, `Calculator::add` is defined and returns the wraparound
result: the value in the signed 32-bit range that differs from the sum by a
multiple of `2^32`. -/
theorem Calculator_add_wraps (a b : Int) (_ha : isInt a) (_hb : isInt b) :
    Calculator.add a b = some (wraparound (a + b)) ∧
    isInt (wraparound (a + b)) ∧
    (wraparound (a + b) - (a + b)) % 4294967296 = 0 := by
  refine ⟨?_, ?_, ?_⟩
  · rw [Calculator.add, intAdd_eq_wraparound]
  · unfold isInt INT_MIN INT_MAX wraparound
    omega
  · unfold wraparound
    omega

theorem Calculator_add_wraps_witness :
    isInt 2147483647 ∧ isInt 1 ∧
    Calculator.add 2147483647 1 = some (-2147483648) ∧
    isInt (-2147483648) ∧ isInt (-1) ∧
    Calculator.add (-2147483648) (-1) = some 2147483647 :=
  ⟨by decide, by decide,
    (Calculator_add_wraps 2147483647 1 (by decide) (by decide)).1.trans (by decide),
    by decide, by decide,
    (Calculator_add_wraps (-2147483648) (-1) (by decide) (by decide)).1.trans (by decide)⟩

/-- C5 fails as stated: with the default exception mask `processVector`
returns normally on a closed device (nothing reaches the device, `badbit` is
set) and on a stream that is already failed, exactly as it returns on a working
stream; its result does not tell a failed write from a successful one. -/
theorem processVector_failed_write_returns_normally :
    (processVector ⟨[1], closedCout⟩).1 = Except.ok () ∧
    (processVector ⟨[1], closedCout⟩).2.cout.device = [] ∧
    (processVector ⟨[1], closedCout⟩).2.cout.rdstate.badbit = true ∧
    (processVector ⟨[1], failedCout⟩).1 = Except.ok () ∧
    (processVector ⟨[1], failedCout⟩).2.cout.device = [] ∧
    (processVector ⟨[1], cout0⟩).1 = Except.ok () ∧
    (processVector ⟨[1], cout0⟩).2.cout.device = "1 \n".data := by
  decide

/-- C5, as the code has it: `processVector` has no error result of its own.
With the empty exception mask (the default) it returns normally, so its result
does not tell a failed write from a successful one; it throws
`ios_base::failure` only when the caller has enabled exceptions on the stream.
On a stream that is good on entry and whose device refuses a character of the
text, the failure shows in `badbit`, and a mask that contains `badbit` makes
the call throw. -/
theorem processVector_failure_reporting (w : World) :
    (w.cout.exceptions = goodbit → (processVector w).1 = Except.ok ()) ∧
    ((processVector w).1 = Except.error IosFailure.failure → w.cout.exceptions ≠ goodbit) ∧
    (∀ k : Nat, w.cout.rdstate = goodbit → w.cout.room = some k →
      k < (layout w.numbers).length →
      (processVector w).2.cout.rdstate.badbit = true ∧
      (w.cout.exceptions.badbit = true →
        (processVector w).1 = Except.error IosFailure.failure)) := by
  have hrun := emits_run w.numbers w.cout
  rw [← processVector_fst, ← processVector_cout] at hrun
  refine ⟨hrun.2.1, ?_, ?_⟩
  · intro hthrow hmask
    rw [hrun.2.1 hmask] at hthrow
    exact absurd hthrow (by simp)
  · intro k hg hroom hk
    have hlen : k < (segments w.numbers ++ [[Char.ofNat 10]]).flatten.length := by
      rw [segments_flatten, printed_eq_layout]
      exact hk
    have h := run_refused _ w.cout k hg hroom hlen
    rw [← processVector_fst, ← processVector_cout] at h
    refine ⟨h.2.1, fun hbad => h.2.2.mpr ?_⟩
    intro hmask
    rw [hmask] at hbad
    exact absurd hbad (by decide)

theorem processVector_failure_reporting_witness :
    (boundedCout 1 goodbit).exceptions = goodbit ∧
    (boundedCout 1 badbit).rdstate = goodbit ∧
    (boundedCout 1 badbit).room = some 1 ∧
    1 < (layout [5]).length ∧
    (boundedCout 1 badbit).exceptions.badbit = true ∧
    (processVector ⟨[5], boundedCout 1 goodbit⟩).1 = Except.ok () ∧
    (processVector ⟨[5], boundedCout 1 badbit⟩).1 = Except.error IosFailure.failure ∧
    (processVector ⟨[5], boundedCout 1 badbit⟩).2.cout.rdstate.badbit = true :=
  ⟨rfl, rfl, rfl, by decide, rfl,
    (processVector_failure_reporting ⟨[5], boundedCout 1 goodbit⟩).1 rfl,
    ((processVector_failure_reporting ⟨[5], boundedCout 1 badbit⟩).2.2 1 rfl rfl
      (by decide)).2 rfl,
    ((processVector_failure_reporting ⟨[5], boundedCout 1 badbit⟩).2.2 1 rfl rfl
      (by decide)).1⟩

/-- C6: whatever the state of the stream, and whether `processVector` returns
or throws, the vector holds the same elements in the same order afterwards, so
also the same length. -/
theorem processVector_leaves_numbers (w : World) :
    (processVector w).2.numbers = w.numbers ∧
    (processVector w).2.numbers.length = w.numbers.length := by
  rw [processVector_numbers w]
  exact ⟨rfl, rfl⟩

/-- C7: for every string `s`, `formatMessage s` starts with `"Message: "` and
its length is `length s + 9`. -/
theorem formatMessage_label_and_length (s : String) :
    "Message: ".data <+: (formatMessage s).data ∧
    (formatMessage s).take 9 = "Message: " ∧
    (formatMessage s).length = s.length + 9 := by
  refine ⟨?_, ?_, ?_⟩
  · rw [formatMessage, String.data_append]
    exact List.prefix_append _ _
  · rw [formatMessage, String.take_eq]
    simp
  · rw [formatMessage, String.length_append]
    have h : "Message: ".length = 9 := by decide
    omega

/-- C9: for ints `a` and `b` whose sum does not overflow, `add(a, b)` and
`add(b, a)` are both defined and equal. -/
theorem Calculator_add_comm (a b : Int) (_ha : isInt a) (_hb : isInt b)
    (hsum : isInt (a + b)) :
    Calculator.add a b = Calculator.add b a ∧
    ∃ r, Calculator.add a b = some r ∧ Calculator.add b a = some r := by
  have hsum2 : isInt (b + a) := by rw [Int.add_comm]; exact hsum
  have h1 : Calculator.add a b = some (a + b) := by
    rw [Calculator.add, intAdd_eq_wraparound, wraparound_of_isInt _ hsum]
  have h2 : Calculator.add b a = some (a + b) := by
    rw [Int.add_comm a b]
    rw [Calculator.add, intAdd_eq_wraparound, wraparound_of_isInt _ hsum2]
  exact ⟨by rw [h1, h2], a + b, h1, h2⟩

theorem Calculator_add_comm_witness :
    isInt (-4) ∧ isInt 9 ∧ isInt (-4 + 9) ∧
    Calculator.add (-4) 9 = Calculator.add 9 (-4) ∧
    ∃ r, Calculator.add (-4) 9 = some r ∧ Calculator.add 9 (-4) = some r :=
  ⟨by decide, by decide, by decide,
    Calculator_add_comm (-4) 9 (by decide) (by decide) (by decide)⟩

/-- C10: on a good standard output whose device accepts the text twice, two
calls in succession on the same vector both return normally and emit the same
text: the device holds the prior contents followed by that text after the
first call, and followed by that text twice after the second. -/
theorem processVector_twice (w : World)
    (hg : w.cout.rdstate = goodbit)
    (ha : w.cout.accepts ((layout w.numbers).length + (layout w.numbers).length)) :
    (processVector w).1 = Except.ok () ∧
    (processVector (processVector w).2).1 = Except.ok () ∧
    (processVector w).2.cout.device = w.cout.device ++ (layout w.numbers).data ∧
    (processVector (processVector w).2).2.cout.device
      = (processVector w).2.cout.device ++ (layout w.numbers).data ∧
    (processVector (processVector w).2).2.cout.device
      = w.cout.device ++ (layout w.numbers).data ++ (layout w.numbers).data := by
  have hlen : (layout w.numbers).length = (printed w.numbers).length := by
    rw [printed_eq_layout]
    rfl
  rw [hlen] at ha
  obtain ⟨a1, a2⟩ := afterWriting_accepts w.cout (printed w.numbers) _ ha
  have h1 := processVector_accepts w hg a1
  have h2 := processVector_accepts
    { w with cout := w.cout.afterWriting (printed w.numbers) } hg a2
  simp only [OStream.afterWriting, printed_eq_layout] at h1 h2
  refine ⟨?_, ?_, ?_, ?_, ?_⟩ <;> simp only [h1, h2, List.append_assoc]

theorem processVector_twice_witness :
    cout0.rdstate = goodbit ∧
    cout0.accepts ((layout [1, 2]).length + (layout [1, 2]).length) ∧
    (processVector (processVector ⟨[1, 2], cout0⟩).2).2.cout.device = "1 2 \n1 2 \n".data :=
  ⟨rfl, by decide,
    (processVector_twice ⟨[1, 2], cout0⟩ rfl (by decide)).2.2.2.2.trans (by decide)⟩

/-! ## Digits read back -/

theorem digitValue_digitChar (d : Nat) (hd : d < 10) : digitValue (digitChar d) = some d := by
  interval_cases d <;> decide

theorem digitChar_ne_space (d : Nat) (hd : d < 10) : digitChar d ≠ Char.ofNat 32 := by
  interval_cases d <;> decide

theorem digitChar_ne_newline (d : Nat) (hd : d < 10) : digitChar d ≠ Char.ofNat 10 := by
  interval_cases d <;> decide

theorem digitChar_ne_minus (d : Nat) (hd : d < 10) : digitChar d ≠ '-' := by
  interval_cases d <;> decide

theorem intToChar_append (fuel v : Nat) (buf : List Char) (hv : v < fuel) :
    intToChar fuel v buf = intToChar fuel v [] ++ buf := by
  induction fuel generalizing v buf with
  | zero => omega
  | succ fuel ih =>
    unfold intToChar
    by_cases h0 : v / 10 = 0
    · simp only [h0, if_true, List.singleton_append]
    · have hlt : v / 10 < fuel := by omega
      simp only [h0, if_false]
      rw [ih (v / 10) (digitChar (v % 10) :: buf) hlt, ih (v / 10) [digitChar (v % 10)] hlt,
        List.append_assoc, List.singleton_append]

theorem intToChar_succ (fuel v : Nat) (hv : v < fuel + 1) :
    intToChar (fuel + 1) v []
      = (if v / 10 = 0 then [] else intToChar fuel (v / 10) []) ++ [digitChar (v % 10)] := by
  by_cases h0 : v / 10 = 0
  · simp only [intToChar, h0, if_true, List.nil_append]
  · have hlt : v / 10 < fuel := by omega
    simp only [intToChar, h0, if_false]
    exact intToChar_append fuel (v / 10) _ hlt

theorem intToChar_digits (fuel v : Nat) (hv : v < fuel) :
    ∀ c ∈ intToChar fuel v [], ∃ d, d < 10 ∧ c = digitChar d := by
  induction fuel generalizing v with
  | zero => omega
  | succ fuel ih =>
    rw [intToChar_succ fuel v hv]
    intro c hc
    rw [List.mem_append, List.mem_singleton] at hc
    rcases hc with hc | hc
    · by_cases h0 : v / 10 = 0
      · simp [h0] at hc
      · simp only [h0, if_false] at hc
        exact ih (v / 10) (by omega) c hc
    · exact ⟨v % 10, Nat.mod_lt v (by decide), hc⟩

theorem intToChar_ne_nil (fuel v : Nat) (hv : v < fuel) : intToChar fuel v [] ≠ [] := by
  cases fuel with
  | zero => omega
  | succ fuel =>
    rw [intToChar_succ fuel v hv]
    simp

theorem parseDigits_append (xs ys : List Char) (acc : Nat) :
    parseDigits (xs ++ ys) acc = (parseDigits xs acc).bind (parseDigits ys) := by
  induction xs generalizing acc with
  | nil => rfl
  | cons c cs ih =>
    simp only [List.cons_append, parseDigits]
    cases digitValue c with
    | none => rfl
    | some d => exact ih _

theorem parseDigits_intToChar (fuel v : Nat) (hv : v < fuel) :
    parseDigits (intToChar fuel v []) 0 = some v := by
  induction fuel generalizing v with
  | zero => omega
  | succ fuel ih =>
    rw [intToChar_succ fuel v hv, parseDigits_append]
    have hd := digitValue_digitChar (v % 10) (Nat.mod_lt v (by decide))
    by_cases h0 : v / 10 = 0
    · simp only [h0, if_true, parseDigits, Option.some_bind, hd]
      congr 1
      omega
    · simp only [h0, if_false, ih (v / 10) (by omega), Option.some_bind, parseDigits, hd]
      congr 1
      omega

theorem decimal_chars (num : Int) :
    ∀ c ∈ decimal num, c = '-' ∨ ∃ d, d < 10 ∧ c = digitChar d := by
  intro c hc
  unfold decimal at hc
  have hdig := intToChar_digits (num.natAbs + 1) num.natAbs (Nat.lt_succ_self _)
  by_cases hneg : num < 0
  · simp only [hneg, if_true, List.mem_cons] at hc
    rcases hc with hc | hc
    · exact Or.inl hc
    · exact Or.inr (hdig c hc)
  · simp only [hneg, if_false] at hc
    exact Or.inr (hdig c hc)

theorem decimal_no_space (num : Int) : Char.ofNat 32 ∉ decimal num := by
  intro h
  rcases decimal_chars num _ h with h1 | ⟨d, hd, h1⟩
  · exact absurd h1 (by decide)
  · exact digitChar_ne_space d hd h1.symm

theorem decimal_no_newline (num : Int) : Char.ofNat 10 ∉ decimal num := by
  intro h
  rcases decimal_chars num _ h with h1 | ⟨d, hd, h1⟩
  · exact absurd h1 (by decide)
  · exact digitChar_ne_newline d hd h1.symm

theorem decimal_ne_nil (num : Int) : decimal num ≠ [] := by
  unfold decimal
  by_cases hneg : num < 0
  · simp only [hneg, if_true]
    exact List.cons_ne_nil _ _
  · simp only [hneg, if_false]
    exact intToChar_ne_nil _ _ (Nat.lt_succ_self _)

theorem parseSigned_decimal (num : Int) : parseSigned (decimal num) = some num := by
  have hne := intToChar_ne_nil (num.natAbs + 1) num.natAbs (Nat.lt_succ_self _)
  have hdig := intToChar_digits (num.natAbs + 1) num.natAbs (Nat.lt_succ_self _)
  have hparse := parseDigits_intToChar (num.natAbs + 1) num.natAbs (Nat.lt_succ_self _)
  unfold decimal
  rcases hd : intToChar (num.natAbs + 1) num.natAbs [] with _ | ⟨c, cs⟩
  · exact absurd hd hne
  · rw [hd] at hdig hparse
    by_cases hneg : num < 0
    · simp only [hneg, if_true, parseSigned, hparse, Option.map_some']
      congr 1
      rw [Int.ofNat_eq_coe]
      omega
    · obtain ⟨d, hd10, hc⟩ := hdig c (List.mem_cons_self _ _)
      have hcm : c ≠ '-' := by
        rw [hc]
        exact digitChar_ne_minus d hd10
      simp only [hneg, if_false, parseSigned, hcm, hparse, Option.map_some']
      congr 1
      rw [Int.ofNat_eq_coe]
      omega

/-! ## The emitted text read back -/

theorem splitAtSpaces_field (t rest : List Char) (ht : Char.ofNat 32 ∉ t) :
    splitAtSpaces (t ++ Char.ofNat 32 :: rest) = t :: splitAtSpaces rest := by
  induction t with
  | nil => simp [splitAtSpaces]
  | cons c t ih =>
    have hc : c ≠ Char.ofNat 32 := fun h => ht (h ▸ List.mem_cons_self _ _)
    have ht2 : Char.ofNat 32 ∉ t := fun h => ht (List.mem_cons_of_mem _ h)
    have hstep : splitAtSpaces (c :: (t ++ Char.ofNat 32 :: rest))
        = (c :: t) :: splitAtSpaces rest := by
      simp only [splitAtSpaces, hc, if_false]
      rw [ih ht2]
    exact hstep

theorem splitAtSpaces_body (numbers : List Int) :
    splitAtSpaces (numbers.map (fun n => decimal n ++ [Char.ofNat 32])).flatten
      = numbers.map decimal ++ [[]] := by
  induction numbers with
  | nil => rfl
  | cons n ns ih =>
    simp only [List.map_cons, List.flatten_cons, List.append_assoc, List.singleton_append]
    rw [splitAtSpaces_field _ _ (decimal_no_space n), ih]
    rfl

theorem filter_fields (numbers : List Int) :
    (numbers.map decimal ++ [[]]).filter (fun f => !f.isEmpty) = numbers.map decimal := by
  induction numbers with
  | nil => rfl
  | cons n ns ih =>
    have hne : (decimal n).isEmpty = false := by
      cases hd : decimal n with
      | nil => exact absurd hd (decimal_ne_nil n)
      | cons c cs => rfl
    simp only [List.map_cons, List.cons_append, List.filter_cons, hne, Bool.not_false, if_true, ih]

theorem parseFields_decimal (numbers : List Int) :
    parseFields (numbers.map decimal) = some numbers := by
  induction numbers with
  | nil => rfl
  | cons n ns ih =>
    simp only [List.map_cons, parseFields, parseSigned_decimal, ih]

theorem decode_printed (numbers : List Int) : decode (printed numbers) = some numbers := by
  unfold decode printed
  rw [List.dropLast_concat, splitAtSpaces_body, filter_fields, parseFields_decimal]

theorem count_space_printed (numbers : List Int) :
    (printed numbers).count (Char.ofNat 32) = numbers.length := by
  unfold printed
  induction numbers with
  | nil => decide
  | cons n ns ih =>
    have h0 : (decimal n).count (Char.ofNat 32) = 0 :=
      List.count_eq_zero.mpr (decimal_no_space n)
    simp only [List.map_cons, List.flatten_cons, List.append_assoc, List.count_append, h0,
      List.length_cons] at ih ⊢
    rw [ih]
    simp
    omega

theorem count_newline_printed (numbers : List Int) :
    (printed numbers).count (Char.ofNat 10) = 1 := by
  unfold printed
  induction numbers with
  | nil => decide
  | cons n ns ih =>
    have h0 : (decimal n).count (Char.ofNat 10) = 0 :=
      List.count_eq_zero.mpr (decimal_no_newline n)
    simp only [List.map_cons, List.flatten_cons, List.append_assoc, List.count_append, h0] at ih ⊢
    rw [ih]
    simp

theorem getLast_printed (numbers : List Int) :
    (printed numbers).getLast? = some (Char.ofNat 10) := by
  unfold printed
  simp

theorem emitted_eq (w : World)
    (hg : w.cout.rdstate = goodbit) (ha : w.cout.accepts (printed w.numbers).length) :
    emitted w = printed w.numbers := by
  unfold emitted
  rw [processVector_accepts w hg ha]
  simp only [OStream.afterWriting]
  exact List.drop_left _ _

theorem formatMessage_drop (s : String) : (formatMessage s).drop 9 = s := by
  rw [String.drop_eq, formatMessage, String.data_append]
  have h : "Message: ".data.length = 9 := by decide
  rw [← h, List.drop_left]

/-! ## The claims on reading results back -/

/-- C11: on a good standard output whose device accepts the text, the text
`processVector` emits determines the vector. Removing its final character,
splitting the rest at each space and reading each non-empty field as a signed
decimal integer gives back exactly the elements, in order; two vectors that
differ never emit the same text; and the text holds exactly as many spaces as
the vector has elements and exactly one line terminator, its last character. -/
theorem processVector_round_trip (w v : World)
    (hg : w.cout.rdstate = goodbit) (ha : w.cout.accepts (layout w.numbers).length)
    (hgv : v.cout.rdstate = goodbit) (hav : v.cout.accepts (layout v.numbers).length) :
    (processVector w).2.cout.device = w.cout.device ++ emitted w ∧
    decode (emitted w) = some w.numbers ∧
    (w.numbers ≠ v.numbers → emitted w ≠ emitted v) ∧
    (emitted w).count (Char.ofNat 32) = w.numbers.length ∧
    (emitted w).count (Char.ofNat 10) = 1 ∧
    (emitted w).getLast? = some (Char.ofNat 10) := by
  have hlen : ∀ ns : List Int, (layout ns).length = (printed ns).length := by
    intro ns
    rw [printed_eq_layout]
    rfl
  rw [hlen] at ha hav
  have hw := emitted_eq w hg ha
  have hv := emitted_eq v hgv hav
  have hdev := processVector_accepts w hg ha
  refine ⟨?_, ?_, ?_, ?_, ?_, ?_⟩
  · rw [hw, hdev]
    rfl
  · rw [hw]
    exact decode_printed _
  · intro hne heq
    apply hne
    have h1 := decode_printed w.numbers
    rw [← hw, heq, hv, decode_printed] at h1
    exact (Option.some.inj h1).symm
  · rw [hw]
    exact count_space_printed _
  · rw [hw]
    exact count_newline_printed _
  · rw [hw]
    exact getLast_printed _

theorem processVector_round_trip_witness :
    (boundedCout 9 goodbit).rdstate = goodbit ∧
    (boundedCout 9 goodbit).accepts (layout [-7, 0, 42]).length ∧
    cout0.rdstate = goodbit ∧
    cout0.accepts (layout [-7, 0]).length ∧
    emitted ⟨[-7, 0, 42], boundedCout 9 goodbit⟩ = "-7 0 42 \n".data ∧
    decode (emitted ⟨[-7, 0, 42], boundedCout 9 goodbit⟩) = some [-7, 0, 42] ∧
    emitted ⟨[-7, 0, 42], boundedCout 9 goodbit⟩ ≠ emitted ⟨[-7, 0], cout0⟩ :=
  ⟨rfl, by decide, rfl, by decide, by decide,
    (processVector_round_trip ⟨[-7, 0, 42], boundedCout 9 goodbit⟩ ⟨[-7, 0], cout0⟩
      rfl (by decide) rfl (by decide)).2.1,
    (processVector_round_trip ⟨[-7, 0, 42], boundedCout 9 goodbit⟩ ⟨[-7, 0], cout0⟩
      rfl (by decide) rfl (by decide)).2.2.1 (by decide)⟩

/-- C12: `formatMessage` is injective, and dropping the first 9 characters of
`formatMessage s` gives back `s` unchanged, also when `s` is empty or itself
begins with `"Message: "`. -/
theorem formatMessage_injective (s t : String) :
    (formatMessage s = formatMessage t ↔ s = t) ∧
    (formatMessage s).drop 9 = s ∧
    (formatMessage "").drop 9 = "" ∧
    (formatMessage "Message: x").drop 9 = "Message: x" := by
  refine ⟨⟨fun h => ?_, fun h => by rw [h]⟩, formatMessage_drop s,
    formatMessage_drop "", formatMessage_drop "Message: x"⟩
  rw [← formatMessage_drop s, h, formatMessage_drop t]

/-! ## The claim on `Calculator::multiply` -/

